/-
Verification of the memory-pool suite of this repository
(csrc/memory_pool): fixed-block pool, stack allocator, thread-safe
fixed pool, STL allocator adapter and the shared MemoryStats counters.

Modelling conventions (shallow embedding of the C++ sources):
- `size_t` / `uintptr_t` values are natural numbers; arithmetic that the
  C++ performs on 64-bit unsigned integers is taken modulo 2^64 where the
  source can wrap (the teaching suite targets x86-64 Linux, where
  sizeof(void*) = 8 and alignof(std::max_align_t) = 16).
- Pointers are integer addresses; the null pointer is address 0.
- The intrusive free list of the fixed-block pools lives inside arena
  memory: the model keeps a word-addressed store `mem : Nat → Nat`
  holding, for each free block start address, the stored "next" pointer,
  exactly as FixedBlockPool writes `block->next`.
- spdlog logging calls have no effect on pool state and are dropped.
- Atomics executed single-threaded (MemoryStats counters, the CAS loops
  of ThreadSafeFixedPool observed without interference) are modelled by
  their sequential effect: a single-threaded compare_exchange retry loop
  on the head pointer is exactly a push/pop.
-/
import Mathlib

namespace MemPool

/-- 2^64, the modulus of `size_t` / `uintptr_t` arithmetic on the target
platform (spelled as a literal so that `omega` and `decide` handle it). -/
def two64 : Nat := 18446744073709551616

theorem two64_eq_pow : two64 = 2 ^ 64 := by norm_num [two64]

/-- 64-bit unsigned subtraction `a - b` as the C++ sources compute it on
`size_t`/`uintptr_t` operands (wraparound semantics). -/
def usub64 (a b : Nat) : Nat := (a + (two64 - b % two64)) % two64

/-- `alignUp(size, alignment)` from memory_pool_common.h:
`(size + alignment - 1) & ~(alignment - 1)`, all operations on `size_t`.
`~x` on a 64-bit unsigned value is `2^64 - 1 - x`. -/
def alignUp (size alignment : Nat) : Nat :=
  (usub64 (size + alignment) 1) &&& (two64 - 1 - usub64 alignment 1)

/-- The MemoryStats structure from memory_pool_common.h: six `size_t`
counters (their `std::atomic` wrappers are irrelevant single-threaded). -/
structure MemoryStats where
  total_allocated : Nat
  total_freed : Nat
  current_usage : Nat
  peak_usage : Nat
  allocation_count : Nat
  deallocation_count : Nat

/-- Freshly constructed MemoryStats: every counter zero-initialised. -/
def MemoryStats.init : MemoryStats := ⟨0, 0, 0, 0, 0, 0⟩

/-- `MemoryStats::recordAllocation(size)`: adds `size` to
`total_allocated` and `current_usage`, increments `allocation_count`,
then raises `peak_usage` to `current_usage` via the compare-exchange
loop, whose single-threaded effect is exactly a running maximum. -/
def MemoryStats.recordAllocation (s : MemoryStats) (size : Nat) : MemoryStats :=
  let cu := (s.current_usage + size) % two64
  { total_allocated := (s.total_allocated + size) % two64
    total_freed := s.total_freed
    current_usage := cu
    peak_usage := if cu > s.peak_usage then cu else s.peak_usage
    allocation_count := (s.allocation_count + 1) % two64
    deallocation_count := s.deallocation_count }

/-- `MemoryStats::recordDeallocation(size)`: adds `size` to
`total_freed`, subtracts it from `current_usage` (unsigned wraparound),
increments `deallocation_count`. -/
def MemoryStats.recordDeallocation (s : MemoryStats) (size : Nat) : MemoryStats :=
  { s with
    total_freed := (s.total_freed + size) % two64
    current_usage := usub64 s.current_usage size
    deallocation_count := (s.deallocation_count + 1) % two64 }

/-! ## Fixed-block pool (intermediate_fixed_block_pool.h) -/

/-- Point update of the word store: the effect of writing value `v` at
address `p` (how `block->next = ...` stores into arena memory). -/
def writeWord (m : Nat → Nat) (p v : Nat) : Nat → Nat :=
  fun x => if x = p then v else m x

/-- Start address of block `i`: `memory_start_ + i * block_size_`. -/
def blockAddr (start bs i : Nat) : Nat := start + i * bs

/-- All `block_count` block start addresses of the arena, front to back. -/
def blockList (start bs n : Nat) : List Nat :=
  (List.range n).map (blockAddr start bs)

/-- State of a `FixedBlockPool`: arena start address, effective block
size, block count, free-list head (`0` = nullptr), the next-pointer
words stored in arena memory, and the statistics member. -/
structure FixedBlockPool where
  memoryStart : Nat
  blockSize : Nat
  blockCount : Nat
  freeList : Nat
  mem : Nat → Nat
  stats : MemoryStats

namespace FixedBlockPool

/-- `FixedBlockPool::owns(ptr)`: pure range check
`start <= p && p < start + block_size_ * block_count_`. -/
def ownsB (s : FixedBlockPool) (p : Nat) : Bool :=
  decide (s.memoryStart ≤ p ∧ p < s.memoryStart + s.blockSize * s.blockCount)

/-- `FixedBlockPool::allocate()`: pop the free-list head; on an empty
list log and return nullptr without touching any state. -/
def allocate (s : FixedBlockPool) : Option Nat × FixedBlockPool :=
  if s.freeList = 0 then (none, s)
  else (some s.freeList,
        { s with
          freeList := s.mem s.freeList,
          stats := s.stats.recordAllocation s.blockSize })

/-- `FixedBlockPool::deallocate(ptr)`: no-op on nullptr; on a pointer
failing `owns` log an error and change nothing; otherwise push the block
onto the free-list head (writing the old head into the block's next
word). -/
def deallocate (s : FixedBlockPool) (p : Nat) : FixedBlockPool :=
  if p = 0 then s
  else if ownsB s p then
    { s with
      mem := writeWord s.mem p s.freeList,
      freeList := p,
      stats := s.stats.recordDeallocation s.blockSize }
  else s

/-- The `initFreeList` loop, shared verbatim by FixedBlockPool and
ThreadSafeFixedPool: for `i = block_count; i > 0; --i` link block `i-1`
in front of the current head. `initFreeListAux start bs k m h` runs the
loop iterations that process blocks `k-1, ..., 0` starting from store
`m` and head `h`; it returns the final store and head. -/
def initFreeListAux (start bs : Nat) : Nat → (Nat → Nat) → Nat → (Nat → Nat) × Nat
  | 0, m, h => (m, h)
  | i + 1, m, h =>
      initFreeListAux start bs i
        (writeWord m (blockAddr start bs i) h) (blockAddr start bs i)

/-- A freshly constructed pool with arena at address `start`, effective
block size `bs` and `n` blocks: zeroed arena words, the free list built
by `initFreeList`, zeroed stats. -/
def freshPool (start bs n : Nat) : FixedBlockPool :=
  let p := initFreeListAux start bs n (fun _ => 0) 0
  { memoryStart := start, blockSize := bs, blockCount := n,
    freeList := p.2, mem := p.1, stats := MemoryStats.init }

end FixedBlockPool

/-- Effective block size computed by the `FixedBlockPool` constructor:
`block_size = max(block_size, sizeof(Block*))` then
`block_size_ = alignUp(block_size, alignof(Block))`, where
`sizeof(Block*) = 8` and `alignof(Block) = 16` because FixedBlockPool's
Block union carries `alignas(std::max_align_t) char data[1]`. -/
def effBlockSize (block_size : Nat) : Nat := alignUp (max block_size 8) 16

/-- Effective block size computed by the `ThreadSafeFixedPool`
constructor: same `max` and `align_up` calls, but its `struct Block`
holds only a `Block* next`, so `alignof(Block) = alignof(Block*) = 8`,
not `alignof(std::max_align_t) = 16`. -/
def tsEffBlockSize (block_size : Nat) : Nat := alignUp (max block_size 8) 8

/-! ## Thread-safe fixed pool (advance_thread_safe_pool.h)

Same data as FixedBlockPool (the atomic head read/written by a
single thread behaves like a plain field; the mutex only guards stats).
Its free list is built by an identical `init_free_list` loop. -/

structure ThreadSafeFixedPool where
  memoryStart : Nat
  blockSize : Nat
  blockCount : Nat
  freeList : Nat
  mem : Nat → Nat
  stats : MemoryStats

namespace ThreadSafeFixedPool

/-- A freshly constructed thread-safe pool (same init loop as
FixedBlockPool, see `initFreeListAux`). -/
def freshPool (start bs n : Nat) : ThreadSafeFixedPool :=
  let p := FixedBlockPool.initFreeListAux start bs n (fun _ => 0) 0
  { memoryStart := start, blockSize := bs, blockCount := n,
    freeList := p.2, mem := p.1, stats := MemoryStats.init }

/-- `ThreadSafeFixedPool::allocate()`: the CAS retry loop, observed
without interference, pops the head (or returns nullptr on an empty
list). -/
def allocate (s : ThreadSafeFixedPool) : Option Nat × ThreadSafeFixedPool :=
  if s.freeList = 0 then (none, s)
  else (some s.freeList,
        { s with
          freeList := s.mem s.freeList,
          stats := s.stats.recordAllocation s.blockSize })

/-- `ThreadSafeFixedPool::deallocate(ptr)`: returns on nullptr, then
pushes the block via the CAS loop. Unlike `FixedBlockPool::deallocate`
there is NO `owns`/range check: any non-null pointer is pushed. -/
def deallocate (s : ThreadSafeFixedPool) (p : Nat) : ThreadSafeFixedPool :=
  if p = 0 then s
  else
    { s with
      mem := writeWord s.mem p s.freeList,
      freeList := p,
      stats := s.stats.recordDeallocation s.blockSize }

end ThreadSafeFixedPool

/-! ## Stack allocator (intermediate_stack_allocator.h) -/

/-- State of a `StackAllocator`: buffer base address, capacity, current
offset and the statistics member. (The marker stack `markers_` only
feeds `pushMarker`/`pop_marker`, which the claims do not touch.) -/
structure StackAllocator where
  buffer : Nat
  capacity : Nat
  offset : Nat
  stats : MemoryStats

namespace StackAllocator

/-- `current_addr = (uintptr_t)buffer_ + offset_` (wrapping). -/
def currentAddr (s : StackAllocator) : Nat := (s.buffer + s.offset) % two64

/-- The padding `aligned_addr - current_addr` computed by
`StackAllocator::allocate` for a given alignment. -/
def paddingOf (s : StackAllocator) (alignment : Nat) : Nat :=
  usub64 (alignUp (currentAddr s) alignment) (currentAddr s)

/-- `StackAllocator::allocate(size, alignment)`: compute the aligned
address and padding; `new_offset = offset_ + padding + size` in `size_t`
arithmetic; fail (nullptr, no state change) if `new_offset > capacity_`;
otherwise return `buffer_ + offset_ + padding` and advance the offset. -/
def allocate (s : StackAllocator) (size alignment : Nat) :
    Option Nat × StackAllocator :=
  let padding := paddingOf s alignment
  let newOffset := (s.offset + padding + size) % two64
  if newOffset > s.capacity then (none, s)
  else (some ((s.buffer + s.offset + padding) % two64),
        { s with offset := newOffset,
                 stats := s.stats.recordAllocation size })

/-- `StackAllocator::getMarker()`: a snapshot of the current offset
(markers carry just the offset). -/
def getMarker (s : StackAllocator) : Nat := s.offset

/-- `StackAllocator::freeToMarker(marker)`: log and ignore markers above
the current offset; otherwise roll the offset back and record the delta
as freed. -/
def freeToMarker (s : StackAllocator) (marker : Nat) : StackAllocator :=
  if marker > s.offset then s
  else
    { s with offset := marker,
             stats := s.stats.recordDeallocation (s.offset - marker) }

/-- `StackAllocator::clear()`: zero the offset and record the old offset
as freed, but only when it was non-zero. -/
def clear (s : StackAllocator) : StackAllocator :=
  let freed := s.offset
  { s with offset := 0,
           stats := if freed > 0 then s.stats.recordDeallocation freed
                    else s.stats }

/-- `StackAllocator::used()`. -/
def used (s : StackAllocator) : Nat := s.offset

/-- Run a sequence of `allocate(size, alignment)` calls, keeping only
the allocator state (results discarded; failed calls included). -/
def runAllocs (s : StackAllocator) : List (Nat × Nat) → StackAllocator
  | [] => s
  | (size, alignment) :: rest => runAllocs (allocate s size alignment).2 rest

/-- True when no call in the sequence wraps `offset_ + padding + size`
around 2^64 (the `size_t` overflow that defeats the capacity check). -/
def noWrapB (s : StackAllocator) : List (Nat × Nat) → Bool
  | [] => true
  | (size, alignment) :: rest =>
      decide (s.offset + paddingOf s alignment + size < two64) &&
      noWrapB (allocate s size alignment).2 rest

end StackAllocator

/-! ## STL allocator adapter (advance_pool_allocator.h) -/

namespace PoolAllocator

/-- `PoolAllocator<T>::max_size()` =
`std::numeric_limits<size_type>::max() / sizeof(T)`, for a given
`sizeof(T)`. -/
def maxSize (sizeofT : Nat) : Nat := (two64 - 1) / sizeofT

/-- Which path `PoolAllocator<T>::allocate(n)` takes. -/
inductive AllocPath where
  | nullReturn    -- n == 0: return nullptr
  | lengthError   -- n > max_size(): throw std::bad_array_new_length
  | pool          -- n == 1: delegate to the wrapped FixedBlockPool
  | fallback      -- otherwise: warn and use global operator new
deriving DecidableEq

/-- Which path `PoolAllocator<T>::deallocate(ptr, n)` takes. -/
inductive DeallocPath where
  | noop          -- ptr == nullptr: return
  | pool          -- n == 1 && pool_->owns(ptr): pool_->deallocate(ptr)
  | fallback      -- otherwise: global operator delete
deriving DecidableEq

/-- The routing decision of `PoolAllocator<T>::allocate(n)`, with the
source's test order: `n == 0`, then `n > max_size()`, then `n == 1`. -/
def allocPath (sizeofT n : Nat) : AllocPath :=
  if n = 0 then .nullReturn
  else if n > maxSize sizeofT then .lengthError
  else if n = 1 then .pool
  else .fallback

/-- The routing decision of `PoolAllocator<T>::deallocate(ptr, n)`:
nullptr is a no-op; the pool path needs `n == 1 && pool_->owns(ptr)`. -/
def deallocPath (s : FixedBlockPool) (p n : Nat) : DeallocPath :=
  if p = 0 then .noop
  else if n = 1 ∧ FixedBlockPool.ownsB s p then .pool
  else .fallback

end PoolAllocator

/-! ## Client traces against a FixedBlockPool

A trace interleaves `allocate()` calls and `deallocate(p)` calls. The
harness additionally tracks the list of outstanding pointers (handed
out by `allocate` and not yet freed), exactly as the repository's tests
do. A trace is valid when every `deallocate` argument is a currently
outstanding pointer — the "never double-free, never free a pointer
outside the pool" discipline of the spec (every freed pointer came from
`allocate` and is freed at most once). -/

inductive PoolOp where
  | alloc : PoolOp
  | free : Nat → PoolOp

namespace FixedBlockPool

/-- One trace step on (pool state, outstanding pointers): a successful
`allocate` adds its result to the outstanding list, `deallocate p`
removes `p` from it. -/
def traceStep (c : FixedBlockPool × List Nat) : PoolOp → FixedBlockPool × List Nat
  | .alloc =>
      ((allocate c.1).2,
       match (allocate c.1).1 with
       | some a => a :: c.2
       | none => c.2)
  | .free p => (deallocate c.1 p, c.2.erase p)

/-- Run a whole trace. -/
def runTrace (c : FixedBlockPool × List Nat) : List PoolOp → FixedBlockPool × List Nat
  | [] => c
  | op :: rest => runTrace (traceStep c op) rest

/-- Trace validity: each `free p` has `p` currently outstanding. -/
def validTraceB (c : FixedBlockPool × List Nat) : List PoolOp → Bool
  | [] => true
  | .alloc :: rest => validTraceB (traceStep c .alloc) rest
  | .free p :: rest => decide (p ∈ c.2) && validTraceB (traceStep c (.free p)) rest

/-- `listRep m h L`: the intrusive free list starting at head `h` whose
next-pointers are stored in `m` consists exactly of the addresses `L`,
ending at nullptr. This is the set of blocks reachable from the free
list. -/
def listRep (m : Nat → Nat) : Nat → List Nat → Prop
  | h, [] => h = 0
  | h, a :: t => h = a ∧ a ≠ 0 ∧ listRep m (m a) t

/-- The partition invariant: some list `L` of addresses represents the
free list, and `L` together with the outstanding pointers is a
permutation of all block start addresses of the arena — every block is
in exactly one of the two collections. -/
def PartitionInv (c : FixedBlockPool × List Nat) : Prop :=
  ∃ L, listRep c.1.mem c.1.freeList L ∧
    (L ++ c.2).Perm (blockList c.1.memoryStart c.1.blockSize c.1.blockCount)

/-- `k` consecutive `allocate()` calls, collecting the returned
pointers in order. -/
def allocN (s : FixedBlockPool) : Nat → List (Option Nat) × FixedBlockPool
  | 0 => ([], s)
  | k + 1 =>
      let r := allocate s
      let rest := allocN r.2 k
      (r.1 :: rest.1, rest.2)

end FixedBlockPool

/-! ## MemoryStats call sequences (for the implicit stats invariant) -/

/-- One recorded call on a MemoryStats object. -/
inductive StatsOp where
  | alloc : Nat → StatsOp
  | dealloc : Nat → StatsOp

namespace MemoryStats

/-- Apply one recorded call. -/
def apply (s : MemoryStats) : StatsOp → MemoryStats
  | .alloc size => s.recordAllocation size
  | .dealloc size => s.recordDeallocation size

/-- Run a sequence of recorded calls. -/
def run (s : MemoryStats) : List StatsOp → MemoryStats
  | [] => s
  | op :: rest => run (s.apply op) rest

/-- Validity of a call sequence: sizes are `size_t` values (below 2^64)
and every recorded deallocation size is at most the current usage at the
time of the call. -/
def validB (s : MemoryStats) : List StatsOp → Bool
  | [] => true
  | .alloc size :: rest =>
      decide (size < two64) && validB (s.apply (.alloc size)) rest
  | .dealloc size :: rest =>
      decide (size < two64) && decide (size ≤ s.current_usage) &&
      validB (s.apply (.dealloc size)) rest

/-- The largest value `current_usage` holds at any point of the run
(initial state included). -/
def histMax (s : MemoryStats) : List StatsOp → Nat
  | [] => s.current_usage
  | op :: rest => max s.current_usage (histMax (s.apply op) rest)

end MemoryStats

/-! ## Helper lemmas: the word store and the free-list representation -/

theorem writeWord_same (m : Nat → Nat) (p v : Nat) : writeWord m p v p = v := by
  simp [writeWord]

theorem writeWord_other (m : Nat → Nat) (p v x : Nat) (h : x ≠ p) :
    writeWord m p v x = m x := by
  simp [writeWord, h]

namespace FixedBlockPool

theorem listRep_writeWord {m : Nat → Nat} {hd : Nat} {L : List Nat} (p v : Nat)
    (hrep : listRep m hd L) (hp : p ∉ L) :
    listRep (writeWord m p v) hd L := by
  induction L generalizing hd with
  | nil => exact hrep
  | cons a t ih =>
      obtain ⟨ha, hne, hrec⟩ := hrep
      refine ⟨ha, hne, ?_⟩
      have hap : a ≠ p := fun h => hp (h ▸ List.mem_cons_self a t)
      rw [writeWord_other m p v a hap]
      exact ih hrec (fun h => hp (List.mem_cons_of_mem a h))

theorem listRep_head_ne_nil {m : Nat → Nat} {hd : Nat} {L : List Nat}
    (hrep : listRep m hd L) (hhd : hd ≠ 0) : ∃ t, L = hd :: t := by
  cases L with
  | nil => exact absurd hrep hhd
  | cons a t => exact ⟨t, by rw [hrep.1]⟩

theorem blockAddr_inj {start bs : Nat} (hbs : 0 < bs) {i j : Nat}
    (h : blockAddr start bs i = blockAddr start bs j) : i = j := by
  unfold blockAddr at h
  have h2 : i * bs = j * bs := by omega
  exact Nat.eq_of_mul_eq_mul_right hbs h2

theorem blockAddr_injective (start : Nat) {bs : Nat} (hbs : 0 < bs) :
    Function.Injective (blockAddr start bs) :=
  fun _ _ h => blockAddr_inj hbs h

theorem blockList_nodup (start bs n : Nat) (hbs : 0 < bs) :
    (blockList start bs n).Nodup := by
  unfold blockList
  exact (List.nodup_range n).map (blockAddr_injective start hbs)

theorem mem_blockList_iff {start bs n p : Nat} :
    p ∈ blockList start bs n ↔ ∃ i, i < n ∧ p = blockAddr start bs i := by
  unfold blockList
  simp only [List.mem_map, List.mem_range]
  constructor
  · rintro ⟨i, hi, rfl⟩; exact ⟨i, hi, rfl⟩
  · rintro ⟨i, hi, rfl⟩; exact ⟨i, hi, rfl⟩

theorem mem_blockList_bounds {start bs n p : Nat} (hbs : 0 < bs)
    (h : p ∈ blockList start bs n) :
    start ≤ p ∧ p < start + bs * n := by
  obtain ⟨i, hi, rfl⟩ := mem_blockList_iff.1 h
  unfold blockAddr
  constructor
  · omega
  · have h1 : i * bs < n * bs := (Nat.mul_lt_mul_right hbs).2 hi
    have h2 : bs * n = n * bs := Nat.mul_comm bs n
    omega

theorem mem_blockList_ne_zero {start bs n p : Nat} (hstart : 0 < start)
    (h : p ∈ blockList start bs n) : p ≠ 0 := by
  obtain ⟨i, _, rfl⟩ := mem_blockList_iff.1 h
  unfold blockAddr
  omega

/-! ### The freshly initialised free list represents all blocks in order -/

theorem initFreeListAux_rep (start bs : Nat) (hstart : 0 < start) (hbs : 0 < bs) :
    ∀ (k : Nat) (m : Nat → Nat) (hd : Nat) (L : List Nat),
      listRep m hd L →
      (∀ j, j < k → blockAddr start bs j ∉ L) →
      listRep (initFreeListAux start bs k m hd).1
        (initFreeListAux start bs k m hd).2
        ((List.range k).map (blockAddr start bs) ++ L) := by
  intro k
  induction k with
  | zero => intro m hd L hrep _; simpa [initFreeListAux] using hrep
  | succ k ih =>
      intro m hd L hrep hfresh
      have hk : blockAddr start bs k ∉ L := hfresh k (Nat.lt_succ_self k)
      have hrep1 : listRep (writeWord m (blockAddr start bs k) hd)
          (blockAddr start bs k) (blockAddr start bs k :: L) := by
        refine ⟨rfl, ?_, ?_⟩
        · unfold blockAddr; omega
        · rw [writeWord_same]
          exact listRep_writeWord _ _ hrep hk
      have hfresh1 : ∀ j, j < k → blockAddr start bs j ∉ (blockAddr start bs k :: L) := by
        intro j hj hmem
        rcases List.mem_cons.1 hmem with h | h
        · exact absurd (blockAddr_inj hbs h) (Nat.ne_of_lt hj)
        · exact hfresh j (Nat.lt_succ_of_lt hj) h
      have := ih (writeWord m (blockAddr start bs k) hd) (blockAddr start bs k)
        (blockAddr start bs k :: L) hrep1 hfresh1
      rw [show (List.range (k+1)).map (blockAddr start bs) ++ L
            = (List.range k).map (blockAddr start bs) ++ (blockAddr start bs k :: L) by
          rw [List.range_succ, List.map_append]; simp]
      exact this

theorem freshPool_rep (start bs n : Nat) (hstart : 0 < start) (hbs : 0 < bs) :
    listRep (freshPool start bs n).mem (freshPool start bs n).freeList
      (blockList start bs n) := by
  have h := initFreeListAux_rep start bs hstart hbs n (fun _ => 0) 0 []
    (by simp [listRep]) (by simp)
  simpa [freshPool, blockList] using h

/-! ### Pointwise description of the freshly built free list -/

theorem initFreeListAux_mem_frozen (start bs : Nat) :
    ∀ (k : Nat) (m : Nat → Nat) (hd x : Nat),
      (∀ j, j < k → x ≠ blockAddr start bs j) →
      (initFreeListAux start bs k m hd).1 x = m x := by
  intro k
  induction k with
  | zero => intro m hd x _; rfl
  | succ k ih =>
      intro m hd x hx
      simp only [initFreeListAux]
      rw [ih _ _ x fun j hj => hx j (Nat.lt_succ_of_lt hj)]
      exact writeWord_other m _ hd x (hx k (Nat.lt_succ_self k))

theorem initFreeListAux_mem_at (start : Nat) {bs : Nat} (hbs : 0 < bs) :
    ∀ (k : Nat) (m : Nat → Nat) (hd j : Nat), j + 1 < k →
      (initFreeListAux start bs k m hd).1 (blockAddr start bs j)
        = blockAddr start bs (j + 1) := by
  intro k
  induction k with
  | zero => intro m hd j hj; omega
  | succ k ih =>
      intro m hd j hj
      simp only [initFreeListAux]
      by_cases hcase : j + 1 < k
      · exact ih _ _ j hcase
      · have hk : k = j + 1 := by omega
        subst hk
        simp only [initFreeListAux]
        have hfr : ∀ i, i < j → blockAddr start bs j ≠ blockAddr start bs i := by
          intro i hi h
          have := blockAddr_inj hbs h
          omega
        rw [initFreeListAux_mem_frozen start bs j _ _ _ hfr]
        rw [writeWord_same]

theorem initFreeListAux_mem_last (start : Nat) {bs : Nat} (hbs : 0 < bs)
    (k : Nat) (m : Nat → Nat) (hd : Nat) (hk : 0 < k) :
    (initFreeListAux start bs k m hd).1 (blockAddr start bs (k - 1)) = hd := by
  obtain ⟨k', rfl⟩ : ∃ k', k = k' + 1 := ⟨k - 1, by omega⟩
  simp only [initFreeListAux, Nat.add_sub_cancel]
  have hfr : ∀ i, i < k' → blockAddr start bs k' ≠ blockAddr start bs i := by
    intro i hi h
    have := blockAddr_inj hbs h
    omega
  rw [initFreeListAux_mem_frozen start bs k' _ _ _ hfr]
  rw [writeWord_same]

theorem initFreeListAux_head (start bs : Nat) :
    ∀ (k : Nat) (m : Nat → Nat) (hd : Nat),
      (initFreeListAux start bs k m hd).2
        = if k = 0 then hd else blockAddr start bs 0 := by
  intro k
  induction k with
  | zero => intro m hd; rfl
  | succ k ih =>
      intro m hd
      simp only [initFreeListAux, ih]
      cases k with
      | zero => simp
      | succ k => simp

theorem freshPool_mem_at (start : Nat) {bs : Nat} (n : Nat) (hbs : 0 < bs)
    {j : Nat} (hj : j + 1 < n) :
    (freshPool start bs n).mem (blockAddr start bs j) = blockAddr start bs (j + 1) := by
  show (initFreeListAux start bs n (fun _ => 0) 0).1 (blockAddr start bs j)
    = blockAddr start bs (j + 1)
  exact initFreeListAux_mem_at start hbs n _ _ j hj

theorem freshPool_mem_last (start : Nat) {bs : Nat} (n : Nat) (hbs : 0 < bs)
    (hn : 0 < n) :
    (freshPool start bs n).mem (blockAddr start bs (n - 1)) = 0 := by
  show (initFreeListAux start bs n (fun _ => 0) 0).1 (blockAddr start bs (n - 1)) = 0
  exact initFreeListAux_mem_last start hbs n _ _ hn

theorem freshPool_head (start bs n : Nat) :
    (freshPool start bs n).freeList
      = if n = 0 then 0 else blockAddr start bs 0 := by
  show (initFreeListAux start bs n (fun _ => 0) 0).2 = _
  exact initFreeListAux_head start bs n _ _

/-! ### Exhausting a fresh pool by repeated allocation -/

theorem allocN_fresh (start bs n : Nat) (hstart : 0 < start) (hbs : 0 < bs) :
    ∀ (k j : Nat) (s : FixedBlockPool),
      s.memoryStart = start → s.blockSize = bs → s.blockCount = n →
      s.mem = (freshPool start bs n).mem →
      s.freeList = (if j < n then blockAddr start bs j else 0) →
      j + k ≤ n →
      (allocN s k).1
          = (List.range' j k).map (fun i => some (blockAddr start bs i)) ∧
      (allocN s k).2.mem = s.mem ∧
      (allocN s k).2.freeList
          = (if j + k < n then blockAddr start bs (j + k) else 0) ∧
      (allocN s k).2.memoryStart = start ∧
      (allocN s k).2.blockSize = bs ∧
      (allocN s k).2.blockCount = n := by
  intro k
  induction k with
  | zero =>
      intro j s h1 h2 h3 h4 h5 h6
      refine ⟨rfl, rfl, ?_, h1, h2, h3⟩
      simpa using h5
  | succ k ih =>
      intro j s h1 h2 h3 h4 h5 h6
      have hj : j < n := by omega
      have hfl : s.freeList = blockAddr start bs j := by rw [h5, if_pos hj]
      have hfl0 : s.freeList ≠ 0 := by
        rw [hfl]; unfold blockAddr; omega
      have ha : allocate s =
          (some s.freeList,
           { s with freeList := s.mem s.freeList,
                    stats := s.stats.recordAllocation s.blockSize }) := by
        simp [allocate, hfl0]
      have hnext : s.mem s.freeList = (if j + 1 < n then blockAddr start bs (j + 1) else 0) := by
        rw [hfl, h4]
        by_cases hcase : j + 1 < n
        · rw [if_pos hcase, freshPool_mem_at start n hbs hcase]
        · have hjn : j = n - 1 := by omega
          rw [if_neg hcase, hjn, freshPool_mem_last start n hbs (by omega)]
      have ihres := ih (j + 1)
        { s with freeList := s.mem s.freeList,
                 stats := s.stats.recordAllocation s.blockSize }
        h1 h2 h3 h4 (by simpa using hnext) (by omega)
      simp only [allocN, ha]
      refine ⟨?_, ihres.2.1, ?_, ihres.2.2.2⟩
      · rw [List.range'_succ, List.map_cons]
        exact congrArg₂ List.cons (by rw [hfl]) ihres.1
      · rw [ihres.2.2.1]
        have : j + 1 + k = j + (k + 1) := by omega
        rw [this]

/-! ### Trace steps preserve the constructor-fixed fields -/

theorem allocate_const_fields (s : FixedBlockPool) :
    (allocate s).2.memoryStart = s.memoryStart ∧
    (allocate s).2.blockSize = s.blockSize ∧
    (allocate s).2.blockCount = s.blockCount := by
  unfold allocate; split <;> simp

theorem deallocate_const_fields (s : FixedBlockPool) (p : Nat) :
    (deallocate s p).memoryStart = s.memoryStart ∧
    (deallocate s p).blockSize = s.blockSize ∧
    (deallocate s p).blockCount = s.blockCount := by
  unfold deallocate
  split
  · simp
  · split <;> simp

theorem traceStep_const_fields (c : FixedBlockPool × List Nat) (op : PoolOp) :
    (traceStep c op).1.memoryStart = c.1.memoryStart ∧
    (traceStep c op).1.blockSize = c.1.blockSize ∧
    (traceStep c op).1.blockCount = c.1.blockCount := by
  cases op with
  | alloc => exact allocate_const_fields c.1
  | free p => exact deallocate_const_fields c.1 p

theorem runTrace_const_fields (ops : List PoolOp) :
    ∀ c : FixedBlockPool × List Nat,
      (runTrace c ops).1.memoryStart = c.1.memoryStart ∧
      (runTrace c ops).1.blockSize = c.1.blockSize ∧
      (runTrace c ops).1.blockCount = c.1.blockCount := by
  induction ops with
  | nil => intro c; exact ⟨rfl, rfl, rfl⟩
  | cons op rest ih =>
      intro c
      have h1 := traceStep_const_fields c op
      have h2 := ih (traceStep c op)
      simp only [runTrace]
      omega

/-! ### The partition invariant is preserved by valid steps -/

theorem inv_step_alloc {c : FixedBlockPool × List Nat}
    (hinv : PartitionInv c) : PartitionInv (traceStep c .alloc) := by
  obtain ⟨L, hrep, hperm⟩ := hinv
  by_cases h0 : c.1.freeList = 0
  · have ha : allocate c.1 = (none, c.1) := by simp [allocate, h0]
    simp only [traceStep, ha]
    exact ⟨L, hrep, hperm⟩
  · obtain ⟨t, rfl⟩ := listRep_head_ne_nil hrep h0
    have ha : allocate c.1 =
        (some c.1.freeList,
         { c.1 with
           freeList := c.1.mem c.1.freeList,
           stats := c.1.stats.recordAllocation c.1.blockSize }) := by
      simp [allocate, h0]
    simp only [traceStep, ha]
    refine ⟨t, hrep.2.2, ?_⟩
    exact List.perm_middle.trans hperm

theorem inv_step_free {c : FixedBlockPool × List Nat} {p : Nat}
    (hstart : 0 < c.1.memoryStart) (hbs : 0 < c.1.blockSize)
    (hp : p ∈ c.2) (hinv : PartitionInv c) :
    PartitionInv (traceStep c (.free p)) := by
  obtain ⟨L, hrep, hperm⟩ := hinv
  have hfull : (blockList c.1.memoryStart c.1.blockSize c.1.blockCount).Nodup :=
    blockList_nodup _ _ _ hbs
  have happ : (L ++ c.2).Nodup := hperm.nodup_iff.2 hfull
  have hpmemfull : p ∈ blockList c.1.memoryStart c.1.blockSize c.1.blockCount :=
    hperm.mem_iff.1 (List.mem_append_right L hp)
  have hbounds := mem_blockList_bounds hbs hpmemfull
  have hp0 : p ≠ 0 := mem_blockList_ne_zero hstart hpmemfull
  have howns : ownsB c.1 p = true := decide_eq_true hbounds
  have hpL : p ∉ L := by
    have hdisj := (List.nodup_append.1 happ).2.2
    exact fun hin => hdisj hin hp
  have hd : deallocate c.1 p =
      { c.1 with
        mem := writeWord c.1.mem p c.1.freeList,
        freeList := p,
        stats := c.1.stats.recordDeallocation c.1.blockSize } := by
    simp [deallocate, hp0, howns]
  simp only [traceStep, hd]
  refine ⟨p :: L, ⟨rfl, hp0, ?_⟩, ?_⟩
  · show listRep (writeWord c.1.mem p c.1.freeList)
      (writeWord c.1.mem p c.1.freeList p) L
    rw [writeWord_same]
    exact listRep_writeWord _ _ hrep hpL
  · have h1 : c.2.Perm (p :: c.2.erase p) := List.perm_cons_erase hp
    exact (List.perm_middle.symm.trans ((h1.append_left L).symm)).trans hperm

theorem inv_run (ops : List PoolOp) :
    ∀ c : FixedBlockPool × List Nat,
      0 < c.1.memoryStart → 0 < c.1.blockSize →
      validTraceB c ops = true → PartitionInv c →
      PartitionInv (runTrace c ops) := by
  induction ops with
  | nil => intro c _ _ _ hinv; exact hinv
  | cons op rest ih =>
      intro c hstart hbs hvalid hinv
      have hfields := traceStep_const_fields c op
      cases op with
      | alloc =>
          simp only [validTraceB] at hvalid
          exact ih (traceStep c .alloc) (by omega) (by omega) hvalid
            (inv_step_alloc hinv)
      | free p =>
          simp only [validTraceB, Bool.and_eq_true, decide_eq_true_eq] at hvalid
          exact ih (traceStep c (.free p)) (by omega) (by omega) hvalid.2
            (inv_step_free hstart hbs hvalid.1 hinv)

theorem freshPool_inv (start bs n : Nat) (hstart : 0 < start) (hbs : 0 < bs) :
    PartitionInv (freshPool start bs n, ([] : List Nat)) := by
  refine ⟨blockList start bs n, freshPool_rep start bs n hstart hbs, ?_⟩
  simp [freshPool]

/-- Allocate, immediately deallocate the returned block, allocate
again: the head block comes straight back (LIFO push/pop), provided the
head is a non-null address inside the arena range. -/
theorem alloc_dealloc_alloc (s : FixedBlockPool) (h0 : s.freeList ≠ 0)
    (hb : s.memoryStart ≤ s.freeList ∧
          s.freeList < s.memoryStart + s.blockSize * s.blockCount) :
    (allocate (deallocate (allocate s).2 s.freeList)).1 = some s.freeList := by
  have h1 : (allocate s).2 =
      { s with freeList := s.mem s.freeList,
               stats := s.stats.recordAllocation s.blockSize } := by
    simp [allocate, h0]
  rw [h1]
  have howns : ownsB
      { s with freeList := s.mem s.freeList,
               stats := s.stats.recordAllocation s.blockSize } s.freeList = true :=
    decide_eq_true (by simpa using hb)
  have h2 : deallocate
      { s with freeList := s.mem s.freeList,
               stats := s.stats.recordAllocation s.blockSize } s.freeList
      = { s with
          freeList := s.freeList,
          mem := writeWord s.mem s.freeList (s.mem s.freeList),
          stats := (s.stats.recordAllocation s.blockSize).recordDeallocation
            s.blockSize } := by
    simp [deallocate, h0, howns]
  rw [h2]
  simp [allocate, h0]

end FixedBlockPool

/-! ## Claim C1: fixed-block pool partition invariant -/

/-- C1: for every sequence of allocate/deallocate calls on a
FixedBlockPool that never double-frees and never frees a pointer outside
the pool (i.e. every freed pointer is currently outstanding), at every
point the blocks reachable from the free list plus the outstanding
blocks are exactly the `block_count` blocks of the arena, with no block
in both collections and none missing (a permutation of the full block
list). Quantifying over all valid traces covers every observation
point, since every prefix of a valid trace is valid. -/
theorem fixedBlockPool_partition_invariant
    (start bs n : Nat) (ops : List PoolOp)
    (hstart : 0 < start) (hbs : 0 < bs)
    (hvalid : FixedBlockPool.validTraceB
      (FixedBlockPool.freshPool start bs n, []) ops = true) :
    FixedBlockPool.PartitionInv
      (FixedBlockPool.runTrace (FixedBlockPool.freshPool start bs n, []) ops) :=
  FixedBlockPool.inv_run ops _ hstart hbs hvalid
    (FixedBlockPool.freshPool_inv start bs n hstart hbs)

theorem fixedBlockPool_partition_invariant_witness :
    FixedBlockPool.validTraceB (FixedBlockPool.freshPool 16 16 3, [])
      [PoolOp.alloc, PoolOp.alloc, PoolOp.free 16, PoolOp.alloc] = true ∧
    FixedBlockPool.PartitionInv
      (FixedBlockPool.runTrace (FixedBlockPool.freshPool 16 16 3, [])
        [PoolOp.alloc, PoolOp.alloc, PoolOp.free 16, PoolOp.alloc]) :=
  ⟨by decide,
   fixedBlockPool_partition_invariant 16 16 3
     [PoolOp.alloc, PoolOp.alloc, PoolOp.free 16, PoolOp.alloc]
     (by decide) (by decide) (by decide)⟩

/-! ## Claim C4: a fresh pool of capacity N yields exactly N blocks -/

/-- C4: on a freshly constructed fixed-block pool with `block_count = N > 0`,
the first N `allocate()` calls all succeed with pointers inside the
arena, and the (N+1)th call returns nullptr leaving the pool state
(free list, arena words and statistics) unchanged. -/
theorem fixedBlockPool_exhaustion
    (start bs n : Nat) (hstart : 0 < start) (hbs : 0 < bs) (_hn : 0 < n) :
    (∀ r ∈ (FixedBlockPool.allocN (FixedBlockPool.freshPool start bs n) n).1,
       ∃ a, r = some a ∧ start ≤ a ∧ a < start + bs * n) ∧
    (FixedBlockPool.allocate
        (FixedBlockPool.allocN (FixedBlockPool.freshPool start bs n) n).2).1
      = none ∧
    (FixedBlockPool.allocate
        (FixedBlockPool.allocN (FixedBlockPool.freshPool start bs n) n).2).2
      = (FixedBlockPool.allocN (FixedBlockPool.freshPool start bs n) n).2 := by
  have hhead : (FixedBlockPool.freshPool start bs n).freeList
      = (if 0 < n then blockAddr start bs 0 else 0) := by
    rw [FixedBlockPool.freshPool_head]
    simp [Nat.pos_iff_ne_zero]
  have h := FixedBlockPool.allocN_fresh start bs n hstart hbs n 0
    (FixedBlockPool.freshPool start bs n) rfl rfl rfl rfl hhead (by omega)
  have hfl0 : (FixedBlockPool.allocN (FixedBlockPool.freshPool start bs n) n).2.freeList = 0 := by
    rw [h.2.2.1]
    simp
  refine ⟨?_, ?_, ?_⟩
  · intro r hr
    rw [h.1] at hr
    obtain ⟨i, hi, rfl⟩ := List.mem_map.1 hr
    have hibound : 0 ≤ i ∧ i < 0 + n := List.mem_range'_1.1 hi
    have hin : i < n := by omega
    have hb := FixedBlockPool.mem_blockList_bounds hbs
      ((@FixedBlockPool.mem_blockList_iff start bs n (blockAddr start bs i)).2
        ⟨i, hin, rfl⟩)
    exact ⟨blockAddr start bs i, rfl, hb.1, hb.2⟩
  · simp [FixedBlockPool.allocate, hfl0]
  · simp [FixedBlockPool.allocate, hfl0]

theorem fixedBlockPool_exhaustion_witness :
    (∀ r ∈ (FixedBlockPool.allocN (FixedBlockPool.freshPool 16 16 2) 2).1,
       ∃ a, r = some a ∧ 16 ≤ a ∧ a < 16 + 16 * 2) ∧
    (FixedBlockPool.allocate
        (FixedBlockPool.allocN (FixedBlockPool.freshPool 16 16 2) 2).2).1
      = none ∧
    (FixedBlockPool.allocate
        (FixedBlockPool.allocN (FixedBlockPool.freshPool 16 16 2) 2).2).2
      = (FixedBlockPool.allocN (FixedBlockPool.freshPool 16 16 2) 2).2 :=
  fixedBlockPool_exhaustion 16 16 2 (by decide) (by decide) (by decide)

/-! ## Claim C5: LIFO reuse round-trip -/

/-- C5: in any reachable state of a fixed-block pool (any valid trace
from a fresh pool), if `allocate()` returns address `A` and `deallocate(A)`
follows immediately, the next `allocate()` returns `A` again. -/
theorem fixedBlockPool_lifo_reuse
    (start bs n : Nat) (ops : List PoolOp)
    (hstart : 0 < start) (hbs : 0 < bs)
    (hvalid : FixedBlockPool.validTraceB
      (FixedBlockPool.freshPool start bs n, []) ops = true)
    (A : Nat)
    (hA : (FixedBlockPool.allocate
      (FixedBlockPool.runTrace (FixedBlockPool.freshPool start bs n, []) ops).1).1
        = some A) :
    (FixedBlockPool.allocate
      (FixedBlockPool.deallocate
        (FixedBlockPool.allocate
          (FixedBlockPool.runTrace (FixedBlockPool.freshPool start bs n, []) ops).1).2
        A)).1 = some A := by
  have hinv := FixedBlockPool.inv_run ops _ hstart hbs hvalid
    (FixedBlockPool.freshPool_inv start bs n hstart hbs)
  obtain ⟨L, hrep, hperm⟩ := hinv
  set c := FixedBlockPool.runTrace (FixedBlockPool.freshPool start bs n, []) ops with hc
  have hfields := FixedBlockPool.runTrace_const_fields ops
    (FixedBlockPool.freshPool start bs n, [])
  have hbs2 : 0 < c.1.blockSize := by
    have : c.1.blockSize = bs := hfields.2.1
    omega
  by_cases h0 : c.1.freeList = 0
  · simp [FixedBlockPool.allocate, h0] at hA
  · have hAfl : c.1.freeList = A := by
      simp [FixedBlockPool.allocate, h0] at hA
      exact hA
    obtain ⟨t, hL⟩ := FixedBlockPool.listRep_head_ne_nil hrep h0
    have hmem : c.1.freeList ∈
        blockList c.1.memoryStart c.1.blockSize c.1.blockCount := by
      apply hperm.mem_iff.1
      apply List.mem_append_left
      rw [hL]
      exact List.mem_cons_self _ t
    have hbounds := FixedBlockPool.mem_blockList_bounds hbs2 hmem
    rw [← hAfl]
    exact FixedBlockPool.alloc_dealloc_alloc c.1 h0 hbounds

theorem fixedBlockPool_lifo_reuse_witness :
    (FixedBlockPool.allocate
      (FixedBlockPool.deallocate
        (FixedBlockPool.allocate
          (FixedBlockPool.runTrace (FixedBlockPool.freshPool 16 16 2, []) []).1).2
        16)).1 = some 16 :=
  fixedBlockPool_lifo_reuse 16 16 2 [] (by decide) (by decide) (by decide) 16
    (by decide)

/-! ## Arithmetic of alignUp on power-of-two alignments -/

/-- Masking a 64-bit value with `2^64 - 2^k` (the two's-complement form
of `~(2^k - 1)`) clears its low `k` bits. -/
theorem land_low_bits_mask (k x : Nat) (hk : k ≤ 64) (hx : x < 2 ^ 64) :
    x &&& (2 ^ 64 - 2 ^ k) = x - x % 2 ^ k := by
  have hm : 2 ^ 64 - 2 ^ k = (2 ^ (64 - k) - 1) <<< k := by
    rw [Nat.shiftLeft_eq, Nat.sub_mul, one_mul, ← Nat.pow_add,
      Nat.sub_add_cancel hk]
  have hr : x - x % 2 ^ k = (x >>> k) <<< k := by
    rw [Nat.shiftLeft_eq, Nat.shiftRight_eq_div_pow]
    have h := Nat.mod_add_div' x (2 ^ k)
    omega
  rw [hm, hr]
  apply Nat.eq_of_testBit_eq
  intro i
  simp only [Nat.testBit_and, Nat.testBit_shiftLeft, Nat.testBit_shiftRight,
    Nat.testBit_two_pow_sub_one]
  by_cases hik : k ≤ i
  · have hki : k + (i - k) = i := by omega
    rw [hki]
    by_cases hi64 : i < 64
    · have hlt : i - k < 64 - k := by omega
      simp [hik, hlt, ge_iff_le]
    · have hxb : x.testBit i = false :=
        Nat.testBit_lt_two_pow
          (lt_of_lt_of_le hx (Nat.pow_le_pow_right (by norm_num) (by omega)))
      have hnlt : ¬ (i - k < 64 - k) := by omega
      simp [hik, hxb, hnlt, ge_iff_le]
  · simp [hik, ge_iff_le]

/-- For a power-of-two alignment `2^k` (k < 64) and a size that does not
overflow when `2^k - 1` is added, `alignUp` computes the usual
round-up-then-truncate. -/
theorem alignUp_pow2 (s k : Nat) (hk : k < 64) (hs : s + (2 ^ k - 1) < two64) :
    alignUp s (2 ^ k) = (s + (2 ^ k - 1)) - (s + (2 ^ k - 1)) % 2 ^ k := by
  have hpos : 0 < 2 ^ k := Nat.pow_pos (by norm_num)
  have hlt : 2 ^ k < two64 := by
    rw [two64_eq_pow]
    exact Nat.pow_lt_pow_right (by norm_num) hk
  unfold alignUp usub64
  have e1 : (2 ^ k + (two64 - 1 % two64)) % two64 = 2 ^ k - 1 := by
    simp only [two64] at hlt ⊢
    omega
  have e2 : (s + 2 ^ k + (two64 - 1 % two64)) % two64 = s + (2 ^ k - 1) := by
    simp only [two64] at hs ⊢
    omega
  rw [e1, e2]
  have e3 : two64 - 1 - (2 ^ k - 1) = 2 ^ 64 - 2 ^ k := by
    rw [two64_eq_pow] at hlt ⊢
    omega
  rw [e3]
  exact land_low_bits_mask k _ (by omega) (by rw [← two64_eq_pow]; exact hs)

/-! ## Claim C3: constructor block-size rounding and alignment -/

/-- C3 counterexample, refuting two parts of the claim as stated.
First, the thread-safe pool does not round to the platform's maximum
fundamental alignment: its `Block` is `struct { Block* next; }` with
`alignof(Block) = 8`, so `block_count = 8` yields an effective block
size of 8, not a multiple of `alignof(std::max_align_t) = 16` (so block
starts `arena + 8*i` are not all 16-aligned). Second, the claimed
quantification over every `block_size` fails even for the fixed-block
pool: for `block_size = 2^64 - 8` the `size_t` addition inside
`alignUp` wraps and the effective block size is 0, smaller than a
pointer. -/
theorem blockSize_alignment_counterexample :
    tsEffBlockSize 8 = 8 ∧ ¬ tsEffBlockSize 8 % 16 = 0 ∧
    effBlockSize (two64 - 8) = 0 ∧ ¬ 8 ≤ effBlockSize (two64 - 8) := by
  decide

/-- C3 amended: for every `block_size` small enough that the rounding
arithmetic does not wrap around `size_t` (`block_size ≤ 2^64 - 16`),
the fixed-block pool's effective block size is at least the pointer
size 8 and a multiple of `alignof(std::max_align_t) = 16`, making every
block start `arena + i * block_size_` 16-aligned whenever the arena
start is; the thread-safe pool guarantees the same only for alignment 8
(its Block has pointer alignment, not max alignment). -/
theorem blockSize_alignment (bsz : Nat) (h : bsz ≤ two64 - 16) :
    (8 ≤ effBlockSize bsz ∧ effBlockSize bsz % 16 = 0 ∧
     (∀ start i, start % 16 = 0 → blockAddr start (effBlockSize bsz) i % 16 = 0)) ∧
    (8 ≤ tsEffBlockSize bsz ∧ tsEffBlockSize bsz % 8 = 0 ∧
     (∀ start i, start % 8 = 0 → blockAddr start (tsEffBlockSize bsz) i % 8 = 0)) := by
  have hmax : max bsz 8 ≤ two64 - 16 := by
    simp only [two64] at h ⊢
    omega
  have h16 : effBlockSize bsz
      = (max bsz 8 + 15) - (max bsz 8 + 15) % 16 := by
    show alignUp (max bsz 8) 16 = _
    have := alignUp_pow2 (max bsz 8) 4 (by norm_num)
      (by simp only [two64] at hmax ⊢; omega)
    norm_num at this
    exact this
  have h8 : tsEffBlockSize bsz
      = (max bsz 8 + 7) - (max bsz 8 + 7) % 8 := by
    show alignUp (max bsz 8) 8 = _
    have := alignUp_pow2 (max bsz 8) 3 (by norm_num)
      (by simp only [two64] at hmax ⊢; omega)
    norm_num at this
    exact this
  have hge : 8 ≤ max bsz 8 := le_max_right bsz 8
  refine ⟨⟨?_, ?_, ?_⟩, ?_, ?_, ?_⟩
  · rw [h16]; omega
  · rw [h16]; omega
  · intro start i hstart
    have hdvd : effBlockSize bsz % 16 = 0 := by rw [h16]; omega
    unfold blockAddr
    rw [Nat.add_mod, Nat.mul_mod, hdvd, hstart]
    simp
  · rw [h8]; omega
  · rw [h8]; omega
  · intro start i hstart
    have hdvd : tsEffBlockSize bsz % 8 = 0 := by rw [h8]; omega
    unfold blockAddr
    rw [Nat.add_mod, Nat.mul_mod, hdvd, hstart]
    simp

theorem blockSize_alignment_witness :
    8 ≤ effBlockSize 5 ∧ effBlockSize 5 % 16 = 0 ∧
    blockAddr 32 (effBlockSize 5) 3 % 16 = 0 ∧
    tsEffBlockSize 5 % 8 = 0 :=
  ⟨(blockSize_alignment 5 (by decide)).1.1,
   (blockSize_alignment 5 (by decide)).1.2.1,
   (blockSize_alignment 5 (by decide)).1.2.2 32 3 (by decide),
   (blockSize_alignment 5 (by decide)).2.2.1⟩

/-! ## Claim C2: deallocate contract of the thread-safe pool -/

/-- C2 counterexample: the claim says `ThreadSafeFixedPool::deallocate`
shares `FixedBlockPool::deallocate`'s contract — out-of-range pointers
are rejected with the pool state left unchanged. On a fresh thread-safe
pool of two 16-byte blocks at address 16 (arena `[16, 48)`), pointer
1000 lies outside the arena, yet `deallocate(1000)` changes the
free-list head to 1000: the source has no `owns`/range check. -/
theorem threadSafePool_deallocate_range_check_counterexample :
    ¬ ((ThreadSafeFixedPool.freshPool 16 16 2).memoryStart ≤ 1000 ∧
       1000 < (ThreadSafeFixedPool.freshPool 16 16 2).memoryStart
              + (ThreadSafeFixedPool.freshPool 16 16 2).blockSize
                * (ThreadSafeFixedPool.freshPool 16 16 2).blockCount) ∧
    (ThreadSafeFixedPool.deallocate
        (ThreadSafeFixedPool.freshPool 16 16 2) 1000).freeList
      ≠ (ThreadSafeFixedPool.freshPool 16 16 2).freeList := by
  decide

/-- C2 amended: `deallocate(nullptr)` is a no-op on both pools, and the
fixed-block pool leaves all state unchanged on a pointer outside
`[arena_start, arena_start + block_size*block_count)`; but the
thread-safe pool performs no range check at all — every non-null
pointer, owned or not, becomes the new free-list head. -/
theorem threadSafePool_deallocate_contract
    (sf : FixedBlockPool) (st : ThreadSafeFixedPool) (p : Nat) :
    (ThreadSafeFixedPool.deallocate st 0 = st) ∧
    (FixedBlockPool.deallocate sf 0 = sf) ∧
    (FixedBlockPool.ownsB sf p = false → FixedBlockPool.deallocate sf p = sf) ∧
    (p ≠ 0 → (ThreadSafeFixedPool.deallocate st p).freeList = p) := by
  refine ⟨rfl, rfl, ?_, ?_⟩
  · intro howns
    unfold FixedBlockPool.deallocate
    split
    · rfl
    · rw [howns]
      simp
  · intro hp
    simp [ThreadSafeFixedPool.deallocate, hp]

theorem threadSafePool_deallocate_contract_witness :
    (FixedBlockPool.deallocate (FixedBlockPool.freshPool 16 16 2) 1000
      = FixedBlockPool.freshPool 16 16 2) ∧
    (ThreadSafeFixedPool.deallocate
        (ThreadSafeFixedPool.freshPool 16 16 2) 1000).freeList = 1000 :=
  ⟨(threadSafePool_deallocate_contract (FixedBlockPool.freshPool 16 16 2)
      (ThreadSafeFixedPool.freshPool 16 16 2) 1000).2.2.1 (by decide),
   (threadSafePool_deallocate_contract (FixedBlockPool.freshPool 16 16 2)
      (ThreadSafeFixedPool.freshPool 16 16 2) 1000).2.2.2 (by decide)⟩

/-! ## Claim C6: stack allocator failure atomicity -/

/-- C6 counterexample: the claim as stated quantifies over every
request whose `offset + padding + size` exceeds capacity. On the state
(buffer 0, capacity 100, offset 50) a request of size `2^64 - 40` with
alignment 1 has `50 + 0 + (2^64 - 40) > 100`, yet the `size_t` sum
wraps to 10, the capacity check passes, the call returns a pointer and
drops the offset to 10: the overflow defeats the bounds check. -/
theorem stackAllocator_failure_atomicity_counterexample :
    (StackAllocator.mk 0 100 50 MemoryStats.init).offset
        + StackAllocator.paddingOf (StackAllocator.mk 0 100 50 MemoryStats.init) 1
        + (two64 - 40)
      > (StackAllocator.mk 0 100 50 MemoryStats.init).capacity ∧
    (StackAllocator.allocate (StackAllocator.mk 0 100 50 MemoryStats.init)
        (two64 - 40) 1).1 ≠ none ∧
    (StackAllocator.allocate (StackAllocator.mk 0 100 50 MemoryStats.init)
        (two64 - 40) 1).2.offset
      ≠ (StackAllocator.mk 0 100 50 MemoryStats.init).offset := by
  decide

/-- C6 amended: for every state and request whose
`offset + padding + size` does not overflow `size_t` and exceeds the
capacity, `allocate` returns a null result and leaves the entire
allocator state (offset and statistics) unchanged. -/
theorem stackAllocator_failure_atomicity
    (s : StackAllocator) (size alignment : Nat)
    (hnw : s.offset + StackAllocator.paddingOf s alignment + size < two64)
    (hex : s.offset + StackAllocator.paddingOf s alignment + size > s.capacity) :
    StackAllocator.allocate s size alignment = (none, s) := by
  have hmod : (s.offset + StackAllocator.paddingOf s alignment + size) % two64
      = s.offset + StackAllocator.paddingOf s alignment + size :=
    Nat.mod_eq_of_lt hnw
  simp only [StackAllocator.allocate]
  rw [hmod, if_pos hex]

theorem stackAllocator_failure_atomicity_witness :
    StackAllocator.allocate (StackAllocator.mk 0 100 8 MemoryStats.init) 200 16
      = (none, StackAllocator.mk 0 100 8 MemoryStats.init) :=
  stackAllocator_failure_atomicity (StackAllocator.mk 0 100 8 MemoryStats.init)
    200 16 (by decide) (by decide)

/-! ## Claim C7: marker round-trip -/

theorem runAllocs_offset_mono (reqs : List (Nat × Nat)) :
    ∀ s : StackAllocator, StackAllocator.noWrapB s reqs = true →
      s.offset ≤ (StackAllocator.runAllocs s reqs).offset := by
  induction reqs with
  | nil => intro s _; exact le_refl _
  | cons r rest ih =>
      obtain ⟨size, alignment⟩ := r
      intro s hnw
      simp only [StackAllocator.noWrapB, Bool.and_eq_true, decide_eq_true_eq]
        at hnw
      have hstep : s.offset ≤ (StackAllocator.allocate s size alignment).2.offset := by
        have hmod : (s.offset + StackAllocator.paddingOf s alignment + size) % two64
            = s.offset + StackAllocator.paddingOf s alignment + size :=
          Nat.mod_eq_of_lt hnw.1
        simp only [StackAllocator.allocate, hmod]
        split
        · exact le_refl _
        · simp only []
          omega
      simp only [StackAllocator.runAllocs]
      exact le_trans hstep (ih _ hnw.2)

/-- C7 counterexample: the claim as stated covers every sequence of
allocate calls. From the state (buffer 0, capacity 100, offset 50) with
marker 50, a single call of size `2^64 - 40` (alignment 1) wraps the
`size_t` offset computation down to 10; `free_to_marker(50)` then sees
a marker above the current offset, logs an error and keeps `used() = 10`
instead of restoring 50. -/
theorem stackAllocator_marker_roundtrip_counterexample :
    StackAllocator.used
      (StackAllocator.freeToMarker
        (StackAllocator.runAllocs (StackAllocator.mk 0 100 50 MemoryStats.init)
          [(two64 - 40, 1)])
        (StackAllocator.getMarker (StackAllocator.mk 0 100 50 MemoryStats.init)))
      ≠ StackAllocator.used (StackAllocator.mk 0 100 50 MemoryStats.init) := by
  decide

/-- C7 amended: capture `m = get_marker()`, run any sequence of
allocate calls (successful or failed) in which no call's
`offset + padding + size` overflows `size_t`, then `free_to_marker(m)`:
`used()` is restored to exactly the value it had when `m` was taken. -/
theorem stackAllocator_marker_roundtrip
    (s : StackAllocator) (reqs : List (Nat × Nat))
    (hnw : StackAllocator.noWrapB s reqs = true) :
    StackAllocator.used
      (StackAllocator.freeToMarker (StackAllocator.runAllocs s reqs)
        (StackAllocator.getMarker s))
      = StackAllocator.used s := by
  have hmono := runAllocs_offset_mono reqs s hnw
  simp only [StackAllocator.used, StackAllocator.getMarker,
    StackAllocator.freeToMarker]
  rw [if_neg (by omega)]

theorem stackAllocator_marker_roundtrip_witness :
    StackAllocator.noWrapB (StackAllocator.mk 0 1024 0 MemoryStats.init)
      [(100, 16), (7, 1)] = true ∧
    StackAllocator.used
      (StackAllocator.freeToMarker
        (StackAllocator.runAllocs (StackAllocator.mk 0 1024 0 MemoryStats.init)
          [(100, 16), (7, 1)])
        (StackAllocator.getMarker (StackAllocator.mk 0 1024 0 MemoryStats.init)))
      = StackAllocator.used (StackAllocator.mk 0 1024 0 MemoryStats.init) :=
  ⟨by decide,
   stackAllocator_marker_roundtrip (StackAllocator.mk 0 1024 0 MemoryStats.init)
     [(100, 16), (7, 1)] (by decide)⟩

/-! ## Claim C8: clear() versus free_to_marker({0}) -/

/-- C8 counterexample: on an allocator with offset 0, `clear()` skips
the statistics update (`if (freed > 0)`), while `free_to_marker({0})`
unconditionally calls `recordDeallocation(0)`, which increments
`deallocation_count`; the two calls therefore do not have identical
effects on every statistics counter. -/
theorem clear_freeToMarker_counterexample :
    (StackAllocator.clear
        (StackAllocator.mk 0 100 0 MemoryStats.init)).stats.deallocation_count
      ≠ (StackAllocator.freeToMarker
        (StackAllocator.mk 0 100 0 MemoryStats.init) 0).stats.deallocation_count := by
  decide

/-- C8 amended: on every state with a strictly positive offset,
`clear()` and `free_to_marker({0})` produce identical states — the same
offset and identical effects on every statistics counter. (They differ
only at offset 0, where `free_to_marker` additionally increments
`deallocation_count`.) -/
theorem clear_eq_freeToMarker_zero (s : StackAllocator) (h : 0 < s.offset) :
    StackAllocator.clear s = StackAllocator.freeToMarker s 0 := by
  simp only [StackAllocator.clear, StackAllocator.freeToMarker]
  rw [if_pos h, if_neg (show ¬ 0 > s.offset by omega), Nat.sub_zero]

theorem clear_eq_freeToMarker_zero_witness :
    StackAllocator.clear (StackAllocator.mk 0 100 7 MemoryStats.init)
      = StackAllocator.freeToMarker (StackAllocator.mk 0 100 7 MemoryStats.init) 0 :=
  clear_eq_freeToMarker_zero (StackAllocator.mk 0 100 7 MemoryStats.init)
    (by decide)

/-! ## Claim C9: STL adapter routing symmetry -/

/-- C9 counterexample: the claim says `allocate(n)` falls back to the
global allocator whenever `n > 1`, but for
`n = max_size() + 1 = (2^64-1)/sizeof(T) + 1` (here `sizeof(T) = 8`)
the source throws `std::bad_array_new_length` before reaching either
path. -/
theorem poolAllocator_routing_counterexample :
    1 < PoolAllocator.maxSize 8 + 1 ∧
    PoolAllocator.allocPath 8 (PoolAllocator.maxSize 8 + 1)
      ≠ PoolAllocator.AllocPath.fallback := by
  decide

/-- C9 amended: for every `n` and non-null `ptr`,
`deallocate(ptr, n)` routes to the wrapped pool exactly when
`n == 1 && pool->owns(ptr)` and otherwise to the global deallocator;
`allocate(n)` delegates to the pool exactly when `n == 1`, falls back
to the global allocator (with a logged warning) when
`1 < n ≤ max_size()`, and throws `std::bad_array_new_length` when
`n > max_size()` (`allocate(0)` returns nullptr without taking either
path). Pool allocations (n = 1, owned pointer) and fallback
allocations (n > 1) are therefore released by the paths that produced
them. -/
theorem poolAllocator_routing (sizeofT n p : Nat) (s : FixedBlockPool)
    (h1 : 0 < sizeofT) (h2 : sizeofT < two64) :
    (p ≠ 0 →
      (PoolAllocator.deallocPath s p n = PoolAllocator.DeallocPath.pool
        ↔ (n = 1 ∧ FixedBlockPool.ownsB s p = true))) ∧
    (p ≠ 0 → ¬ (n = 1 ∧ FixedBlockPool.ownsB s p = true) →
      PoolAllocator.deallocPath s p n = PoolAllocator.DeallocPath.fallback) ∧
    (PoolAllocator.allocPath sizeofT n = PoolAllocator.AllocPath.pool ↔ n = 1) ∧
    (1 < n → n ≤ PoolAllocator.maxSize sizeofT →
      PoolAllocator.allocPath sizeofT n = PoolAllocator.AllocPath.fallback) ∧
    (PoolAllocator.maxSize sizeofT < n →
      PoolAllocator.allocPath sizeofT n = PoolAllocator.AllocPath.lengthError) := by
  have hmax : 1 ≤ PoolAllocator.maxSize sizeofT := by
    unfold PoolAllocator.maxSize
    rw [Nat.le_div_iff_mul_le h1, one_mul]
    simp only [two64] at h2 ⊢
    omega
  refine ⟨?_, ?_, ?_, ?_, ?_⟩
  · intro hp
    unfold PoolAllocator.deallocPath
    rw [if_neg hp]
    constructor
    · intro hpath
      by_contra hcond
      rw [if_neg ?_] at hpath
      · exact PoolAllocator.DeallocPath.noConfusion hpath
      · intro hc
        exact hcond ⟨hc.1, hc.2⟩
    · intro hcond
      rw [if_pos ⟨hcond.1, hcond.2⟩]
  · intro hp hcond
    unfold PoolAllocator.deallocPath
    rw [if_neg hp, if_neg ?_]
    intro hc
    exact hcond ⟨hc.1, hc.2⟩
  · unfold PoolAllocator.allocPath
    constructor
    · intro hpath
      by_cases hn0 : n = 0
      · rw [if_pos hn0] at hpath
        exact PoolAllocator.AllocPath.noConfusion hpath
      · rw [if_neg hn0] at hpath
        by_cases hbig : n > PoolAllocator.maxSize sizeofT
        · rw [if_pos hbig] at hpath
          exact PoolAllocator.AllocPath.noConfusion hpath
        · rw [if_neg hbig] at hpath
          by_cases hn1 : n = 1
          · exact hn1
          · rw [if_neg hn1] at hpath
            exact PoolAllocator.AllocPath.noConfusion hpath
    · intro hn1
      subst hn1
      rw [if_neg (by omega), if_neg (by omega), if_pos rfl]
  · intro hgt hle
    unfold PoolAllocator.allocPath
    rw [if_neg (by omega), if_neg (by omega), if_neg (by omega)]
  · intro hgt
    unfold PoolAllocator.allocPath
    rw [if_neg (by omega), if_pos (by omega)]

theorem poolAllocator_routing_witness :
    (PoolAllocator.deallocPath (FixedBlockPool.freshPool 16 16 2) 16 1
        = PoolAllocator.DeallocPath.pool
      ↔ (1 = 1 ∧ FixedBlockPool.ownsB (FixedBlockPool.freshPool 16 16 2) 16 = true)) ∧
    (PoolAllocator.allocPath 8 1 = PoolAllocator.AllocPath.pool ↔ 1 = 1) ∧
    PoolAllocator.allocPath 8 3 = PoolAllocator.AllocPath.fallback :=
  ⟨(poolAllocator_routing 8 1 16 (FixedBlockPool.freshPool 16 16 2)
      (by decide) (by decide)).1 (by decide),
   (poolAllocator_routing 8 1 16 (FixedBlockPool.freshPool 16 16 2)
      (by decide) (by decide)).2.2.1,
   (poolAllocator_routing 8 3 16 (FixedBlockPool.freshPool 16 16 2)
      (by decide) (by decide)).2.2.2.1 (by decide) (by decide)⟩

/-! ## Claim C10: the implicit MemoryStats invariant -/

theorem two64_pos : 0 < two64 := by norm_num [two64]

theorem histMax_ge_usage (ops : List StatsOp) (s : MemoryStats) :
    s.current_usage ≤ MemoryStats.histMax s ops := by
  cases ops with
  | nil => exact le_refl _
  | cons op rest => exact le_max_left _ _

theorem statsRun_spec (ops : List StatsOp) :
    ∀ s : MemoryStats,
      MemoryStats.validB s ops = true →
      s.total_allocated < two64 → s.total_freed < two64 →
      s.current_usage < two64 →
      s.current_usage = usub64 s.total_allocated s.total_freed →
      s.current_usage ≤ s.peak_usage →
      (MemoryStats.run s ops).current_usage
        = usub64 (MemoryStats.run s ops).total_allocated
            (MemoryStats.run s ops).total_freed ∧
      (MemoryStats.run s ops).peak_usage
        = max s.peak_usage (MemoryStats.histMax s ops) := by
  induction ops with
  | nil =>
      intro s _ _ _ _ hcu hpk
      refine ⟨hcu, ?_⟩
      simp only [MemoryStats.histMax, MemoryStats.run]
      omega
  | cons op rest ih =>
      intro s hvalid hta htf hcu hinv hpk
      cases op with
      | alloc size =>
          simp only [MemoryStats.validB, Bool.and_eq_true, decide_eq_true_eq]
            at hvalid
          obtain ⟨hsz, hvrest⟩ := hvalid
          have hta2 : (s.apply (.alloc size)).total_allocated
              = (s.total_allocated + size) % two64 := rfl
          have htf2 : (s.apply (.alloc size)).total_freed = s.total_freed := rfl
          have hcu2 : (s.apply (.alloc size)).current_usage
              = (s.current_usage + size) % two64 := rfl
          have hpk2 : (s.apply (.alloc size)).peak_usage
              = (if (s.current_usage + size) % two64 > s.peak_usage
                 then (s.current_usage + size) % two64 else s.peak_usage) := rfl
          have hrec := ih (s.apply (.alloc size)) hvrest
            (by rw [hta2]; exact Nat.mod_lt _ two64_pos)
            (by rw [htf2]; exact htf)
            (by rw [hcu2]; exact Nat.mod_lt _ two64_pos)
            (by
              rw [hta2, htf2, hcu2]
              simp only [usub64] at hinv ⊢
              simp only [two64] at *
              omega)
            (by
              rw [hcu2, hpk2]
              split
              · exact le_refl _
              · omega)
          simp only [MemoryStats.run]
          refine ⟨hrec.1, ?_⟩
          rw [hrec.2]
          have hhist : MemoryStats.histMax s (StatsOp.alloc size :: rest)
              = max s.current_usage
                  (MemoryStats.histMax (s.apply (.alloc size)) rest) := rfl
          have hX := histMax_ge_usage rest (s.apply (.alloc size))
          rw [hcu2] at hX
          rw [hpk2, hhist]
          split
          · omega
          · omega
      | dealloc size =>
          simp only [MemoryStats.validB, Bool.and_eq_true, decide_eq_true_eq]
            at hvalid
          obtain ⟨⟨hsz, hle⟩, hvrest⟩ := hvalid
          have hta2 : (s.apply (.dealloc size)).total_allocated
              = s.total_allocated := rfl
          have htf2 : (s.apply (.dealloc size)).total_freed
              = (s.total_freed + size) % two64 := rfl
          have hcu2 : (s.apply (.dealloc size)).current_usage
              = usub64 s.current_usage size := rfl
          have hpk2 : (s.apply (.dealloc size)).peak_usage = s.peak_usage := rfl
          have hcu3 : usub64 s.current_usage size = s.current_usage - size := by
            simp only [usub64]
            simp only [two64] at *
            omega
          have hrec := ih (s.apply (.dealloc size)) hvrest
            (by rw [hta2]; exact hta)
            (by rw [htf2]; exact Nat.mod_lt _ two64_pos)
            (by rw [hcu2, hcu3]; omega)
            (by
              rw [hta2, htf2, hcu2]
              simp only [usub64] at hinv ⊢
              simp only [two64] at *
              omega)
            (by rw [hcu2, hpk2, hcu3]; omega)
          simp only [MemoryStats.run]
          refine ⟨hrec.1, ?_⟩
          rw [hrec.2]
          have hhist : MemoryStats.histMax s (StatsOp.dealloc size :: rest)
              = max s.current_usage
                  (MemoryStats.histMax (s.apply (.dealloc size)) rest) := rfl
          rw [hpk2, hhist]
          omega

/-- C10: after every valid single-threaded sequence of
`recordAllocation`/`recordDeallocation` calls (each recorded
deallocation size at most the current usage at the time), starting from
zeroed counters, `current_usage` equals `total_allocated` minus
`total_freed` (in `size_t` arithmetic), and `peak_usage` equals the
largest value `current_usage` has ever held. -/
theorem memoryStats_invariant (ops : List StatsOp)
    (hvalid : MemoryStats.validB MemoryStats.init ops = true) :
    (MemoryStats.run MemoryStats.init ops).current_usage
      = usub64 (MemoryStats.run MemoryStats.init ops).total_allocated
          (MemoryStats.run MemoryStats.init ops).total_freed ∧
    (MemoryStats.run MemoryStats.init ops).peak_usage
      = MemoryStats.histMax MemoryStats.init ops := by
  have h := statsRun_spec ops MemoryStats.init hvalid (by decide) (by decide)
    (by decide) (by decide) (by decide)
  refine ⟨h.1, ?_⟩
  rw [h.2]
  have h0 : MemoryStats.init.peak_usage = 0 := rfl
  rw [h0]
  omega

theorem memoryStats_invariant_witness :
    MemoryStats.validB MemoryStats.init
      [StatsOp.alloc 100, StatsOp.alloc 50, StatsOp.dealloc 30] = true ∧
    (MemoryStats.run MemoryStats.init
        [StatsOp.alloc 100, StatsOp.alloc 50, StatsOp.dealloc 30]).current_usage
      = usub64 (MemoryStats.run MemoryStats.init
            [StatsOp.alloc 100, StatsOp.alloc 50, StatsOp.dealloc 30]).total_allocated
          (MemoryStats.run MemoryStats.init
            [StatsOp.alloc 100, StatsOp.alloc 50, StatsOp.dealloc 30]).total_freed ∧
    (MemoryStats.run MemoryStats.init
        [StatsOp.alloc 100, StatsOp.alloc 50, StatsOp.dealloc 30]).peak_usage
      = MemoryStats.histMax MemoryStats.init
          [StatsOp.alloc 100, StatsOp.alloc 50, StatsOp.dealloc 30] :=
  ⟨by decide,
   (memoryStats_invariant
     [StatsOp.alloc 100, StatsOp.alloc 50, StatsOp.dealloc 30] (by decide)).1,
   (memoryStats_invariant
     [StatsOp.alloc 100, StatsOp.alloc 50, StatsOp.dealloc 30] (by decide)).2⟩

end MemPool
